import Mathlib

/-!
Shallow embedding of the selection core of `selections.py` (book-club
curation tool): the shortlist store, the selection-history ledger, the
eligibility filter, the random selector and the history mutators.

Conventions of the embedding:
* A pandas DataFrame loaded from CSV is modelled as a `List` of records in
  row order; `df.to_csv` followed by a later read is the identity on that
  list.
* CSV cells that may be `NaN` (missing) are modelled as `Option String`
  (`none` = `NaN`); `pd.isna` is the `none` test.
* `datetime.now()` is an explicit `now : String` parameter.
* `selection_round` is an `Int` (pandas int64 column).
* `eligible_books.sample(n=1)` (a uniform draw of one row) is modelled by
  an oracle seed `k : Nat`: the draw picks row `k % n` of the eligible
  list, so a seed uniform on `0..n-1` hits each row exactly once.
-/

/-- A row of `book_selections.csv` (the shortlist store), fields as written
by `save_book_to_list`. -/
structure Book where
  id : String
  title : String
  author_names : String
  release_year : String
  pages : String
  rating : String
  ratings_count : String
  genres : Option String
  description : String
  image_url : String
  added_date : String
deriving Repr, DecidableEq

/-- A row of `selection_history.csv` (the ledger store), fields as written
by `save_book_selection`. -/
structure HistRec where
  selection_date : String
  book_id : String
  title : String
  author_names : String
  genres : Option String
  release_year : String
  pages : String
  rating : String
  selection_round : Int
deriving Repr, DecidableEq

/-- The two durable stores: the shortlist (`book_selections.csv`) and the
ledger (`selection_history.csv`). -/
structure Stores where
  shortlist : List Book
  ledger : List HistRec
deriving Repr, DecidableEq

/-- Python `str.strip()`: drop leading and trailing whitespace. -/
def pyStrip (s : String) : String :=
  String.mk (((s.data.dropWhile Char.isWhitespace).reverse.dropWhile
    Char.isWhitespace).reverse)

def splitCommaAux : List Char → List (List Char)
  | [] => [[]]
  | c :: cs =>
    if c = ',' then [] :: splitCommaAux cs
    else
      match splitCommaAux cs with
      | [] => [[c]]
      | g :: gs => (c :: g) :: gs

/-- Python `str.split(',')`: the maximal `','`-free pieces, one more piece
than there are commas (so never the empty list; `''.split(',') == ['']`). -/
def splitComma (s : String) : List String :=
  (splitCommaAux s.data).map String.mk

/-- `get_primary_genre`: `pd.isna(g) or g == ''` yields `''`; otherwise the
string is split on `','`, each piece stripped, and the first piece
returned (`str.split(',')` on any string yields a non-empty list). -/
def get_primary_genre (genres_string : Option String) : String :=
  match genres_string with
  | none => ""
  | some s =>
    if s = "" then ""
    else
      match (splitComma s).map pyStrip with
      | [] => ""
      | g :: _ => g

/-- `history_df['selection_round'].max()` on a non-empty frame; `0` is a
dummy for the empty frame (the callers below only use it when non-empty,
matching `1 if history_df.empty else max + 1`). -/
def maxRound : List HistRec → Int
  | [] => 0
  | r :: rs => rs.foldl (fun m x => max m x.selection_round) r.selection_round

/-- The row `sort_values('selection_round', ascending=False).iloc[0]`
produces on a non-empty frame: a row carrying the maximum round (on a tie,
the first such row in store order). -/
def last_selection_of (r : HistRec) (rs : List HistRec) : HistRec :=
  (((r :: rs).filter fun x => x.selection_round = maxRound (r :: rs))).headD r

/-- `get_last_selection`: `None` on an empty history, else the row found by
sorting on `selection_round` descending and taking `iloc[0]`. -/
def get_last_selection : List HistRec → Option HistRec
  | [] => none
  | r :: rs => some (last_selection_of r rs)

/-- `get_eligible_books_for_selection`, reading the two stores passed in:
empty shortlist and empty history short-circuits; otherwise three
successive frame filters (previously selected ids, same author string as
the last pick, same primary genre as the last pick when that genre is
non-empty) and a status string. -/
def get_eligible_books_for_selection (current_books : List Book)
    (history : List HistRec) : List Book × String :=
  if current_books = [] then (current_books, "No books in your list")
  else
    match history with
    | [] =>
      (current_books,
        "All " ++ toString current_books.length ++
          " books eligible (no previous selections)")
    | r :: rs =>
      let last_selection := last_selection_of r rs
      let last_author := last_selection.author_names
      let last_genre := get_primary_genre last_selection.genres
      let selected_book_ids := (r :: rs).map HistRec.book_id
      let e1 := current_books.filter fun b => ¬ selected_book_ids.contains b.id
      let e2 := e1.filter fun b => b.author_names ≠ last_author
      let eligible_books :=
        if last_genre ≠ "" then
          e2.filter fun b => get_primary_genre b.genres ≠ last_genre
        else e2
      let status_msg := toString eligible_books.length ++ " books eligible"
      let status_msg :=
        if eligible_books.length < current_books.length then
          status_msg ++ " (" ++
            toString (current_books.length - eligible_books.length) ++
            " filtered out: previous selections, same author '" ++
            last_author ++ "', same genre '" ++ last_genre ++ "')"
        else status_msg
      (eligible_books, status_msg)

/-- `select_random_book`: recomputes the eligible set from the stores,
returns `(None, status)` when it is empty, else one row drawn uniformly
(`sample(n=1)`, modelled by the seed `k`).  The source performs no store
write, so the resulting store state is the input state. -/
def select_random_book (s : Stores) (k : Nat) :
    Stores × Option Book × String :=
  let p := get_eligible_books_for_selection s.shortlist s.ledger
  match p.1 with
  | [] => (s, none, p.2)
  | b :: bs =>
    (s, some ((b :: bs).get ⟨k % (bs.length + 1), Nat.mod_lt k (Nat.succ_pos bs.length)⟩),
      p.2)

/-- `save_book_selection`: next round is `1` on an empty history, else
`max + 1`; a record copying the proposed book's display fields plus a
fresh timestamp is appended (`pd.concat`) and the frame written back. -/
def save_book_selection (history : List HistRec) (book_data : Book)
    (now : String) : List HistRec × Bool × String :=
  let next_round : Int := if history = [] then 1 else maxRound history + 1
  let selection_row : HistRec :=
    { selection_date := now
      book_id := book_data.id
      title := book_data.title
      author_names := book_data.author_names
      genres := book_data.genres
      release_year := book_data.release_year
      pages := book_data.pages
      rating := book_data.rating
      selection_round := next_round }
  (history ++ [selection_row], true,
    "Book selected for Round " ++ toString next_round ++ "!")

/-- `remove_last_selection`: empty history fails with no write; otherwise
the row reported is the `sort_values(...).iloc[0]` row and every row whose
round equals the maximum is dropped (`!= max_round` filter) before the
frame is written back. -/
def remove_last_selection (history : List HistRec) :
    List HistRec × Bool × String :=
  match history with
  | [] => ([], false, "No selections to remove")
  | r :: rs =>
    let last := last_selection_of r rs
    let max_round := maxRound (r :: rs)
    ((r :: rs).filter fun x => x.selection_round ≠ max_round,
      true,
      "Removed '" ++ last.title ++ "' from Round " ++
        toString last.selection_round)

/-- `clear_all_selections`: writes an empty frame over the ledger,
whatever it held. -/
def clear_all_selections (_history : List HistRec) :
    List HistRec × Bool × String :=
  ([], true, "All selections cleared")

/-- `df.drop_duplicates(subset=['id'], keep='first')`, scanning rows in
order with the set of already-seen ids: keep each row whose `id` has not
appeared in an earlier row. -/
def dedupByIdAux (seen : List String) : List Book → List Book
  | [] => []
  | b :: bs =>
    if seen.contains b.id then dedupByIdAux seen bs
    else b :: dedupByIdAux (b.id :: seen) bs

def dedupById (books : List Book) : List Book := dedupByIdAux [] books

/-- `clean_duplicate_books`: an empty frame falls through the `if` and
returns Python `None` (modelled `none`); otherwise the deduplicated frame
is written back only when the removed count is positive, and the count is
returned. -/
def clean_duplicate_books (books : List Book) : List Book × Option Nat :=
  if books = [] then (books, none)
  else
    let cleaned := dedupById books
    let removed := books.length - cleaned.length
    (if removed > 0 then cleaned else books, some removed)

/-- `save_book_to_list`'s `book_data` argument: a catalog-API book
document.  `author_names` and `genres` arrive as lists and are joined
with `', '`; scalar fields may be missing (`.get(..., '')` /
`safe_get`). -/
structure BookInput where
  id : String
  title : Option String
  author_names : List String
  release_year : Option String
  pages : Option String
  rating : Option String
  ratings_count : Option String
  genres : List String
  description : Option String
  image_url : String
deriving Repr, DecidableEq

/-- `safe_get(value, default='')`: `None`/`NaN` becomes `''`. -/
def safe_get : Option String → String
  | none => ""
  | some v => v

/-- `save_book_to_list`: rejected when the id already occurs in the `id`
column, else a row is built (joining author and genre lists with `', '`)
and appended (`pd.concat`) before the frame is written back. -/
def save_book_to_list (books : List Book) (book_data : BookInput)
    (now : String) : List Book × Bool × String :=
  let book_id := book_data.id
  if (books.map Book.id).contains book_id then
    (books, false, "Book is already in your list!")
  else
    let book_row : Book :=
      { id := book_data.id
        title := safe_get book_data.title
        author_names := String.intercalate ", " book_data.author_names
        release_year := safe_get book_data.release_year
        pages := safe_get book_data.pages
        rating := safe_get book_data.rating
        ratings_count := safe_get book_data.ratings_count
        genres := some (String.intercalate ", " book_data.genres)
        description := safe_get book_data.description
        image_url := book_data.image_url
        added_date := now }
    (books ++ [book_row], true, "Book added to your list!")

/-- Primary-genre extraction as worded by the spec: the first
comma-separated entry trimmed of surrounding whitespace, or an empty value
when the field is empty or missing.  Stated independently of
`get_primary_genre` so the two can be compared. -/
def primary_genre_spec (g : Option String) : String :=
  match g with
  | none => ""
  | some s => pyStrip ((splitComma s).headD "")

/-- The three ledger mutators, as a command alphabet for reasoning about
arbitrary operation sequences. -/
inductive LedgerOp where
  | confirm (book_data : Book) (now : String)
  | removeLast
  | clearAll

/-- The ledger state left behind by one mutator call. -/
def apply_ledger_op (history : List HistRec) : LedgerOp → List HistRec
  | .confirm book_data now => (save_book_selection history book_data now).1
  | .removeLast => (remove_last_selection history).1
  | .clearAll => (clear_all_selections history).1

/-- The ledger reached from the empty store by a sequence of mutator
calls. -/
def run_ledger_ops (ops : List LedgerOp) : List HistRec :=
  ops.foldl apply_ledger_op []

/-- The contiguous round sequence `[1, 2, ..., n]`. -/
def roundSeq : Nat → List Int
  | 0 => []
  | n + 1 => roundSeq n ++ [(n : Int) + 1]

/-- Demo shortlist rows for concrete witnesses. -/
def bookA : Book :=
  { id := "A", title := "Dracula", author_names := "X", release_year := "1897"
    pages := "418", rating := "4.0", ratings_count := "100"
    genres := some "Horror, Gothic", description := "", image_url := ""
    added_date := "2024-01-01 00:00:00" }

def bookB : Book :=
  { id := "B", title := "Dune", author_names := "Y", release_year := "1965"
    pages := "412", rating := "4.2", ratings_count := "200"
    genres := some "SciFi", description := "", image_url := ""
    added_date := "2024-01-02 00:00:00" }

def bookC : Book :=
  { id := "C", title := "Emma", author_names := "X", release_year := "1815"
    pages := "300", rating := "3.9", ratings_count := "150"
    genres := some "Romance", description := "", image_url := ""
    added_date := "2024-01-03 00:00:00" }

/-- Demo ledger rows for concrete witnesses. -/
def histA : HistRec :=
  { selection_date := "2024-02-01 00:00:00", book_id := "A", title := "Dracula"
    author_names := "X", genres := some "Horror, Gothic", release_year := "1897"
    pages := "418", rating := "4.0", selection_round := 1 }

def histB : HistRec :=
  { selection_date := "2024-03-01 00:00:00", book_id := "B", title := "Dune"
    author_names := "Y", genres := some "SciFi", release_year := "1965"
    pages := "412", rating := "4.2", selection_round := 2 }

/-- A demo catalog-API document for `save_book_to_list` witnesses. -/
def inputD : BookInput :=
  { id := "D", title := some "Ubik", author_names := ["Z"]
    release_year := some "1969", pages := some "224", rating := some "4.1"
    ratings_count := some "50", genres := ["SciFi", "Mystery"]
    description := none, image_url := "" }

/-! ### Helper lemmas on `maxRound` and `last_selection_of` -/

theorem foldl_max_le_self (rs : List HistRec) (a : Int) :
    a ≤ rs.foldl (fun m x => max m x.selection_round) a := by
  induction rs generalizing a with
  | nil => exact le_refl a
  | cons y ys ih =>
    exact le_trans (le_max_left a y.selection_round) (ih (max a y.selection_round))

theorem foldl_max_le_of_mem (rs : List HistRec) :
    ∀ (a : Int) (x : HistRec), x ∈ rs →
      x.selection_round ≤ rs.foldl (fun m x => max m x.selection_round) a := by
  induction rs with
  | nil => intro a x hx; cases hx
  | cons y ys ih =>
    intro a x hx
    rcases List.mem_cons.1 hx with rfl | hmem
    · exact le_trans (le_max_right a x.selection_round)
        (foldl_max_le_self ys (max a x.selection_round))
    · exact ih (max a y.selection_round) x hmem

theorem foldl_max_mem (rs : List HistRec) (a : Int) :
    rs.foldl (fun m x => max m x.selection_round) a = a ∨
      ∃ x ∈ rs, rs.foldl (fun m x => max m x.selection_round) a =
        x.selection_round := by
  induction rs generalizing a with
  | nil => exact Or.inl rfl
  | cons y ys ih =>
    rcases ih (max a y.selection_round) with h | ⟨x, hx, h⟩
    · rcases max_choice a y.selection_round with hm | hm
      · exact Or.inl (by simpa [hm] using h)
      · exact Or.inr ⟨y, List.mem_cons_self y ys, by simpa [hm] using h⟩
    · exact Or.inr ⟨x, List.mem_cons_of_mem y hx, h⟩

theorem le_maxRound (h : List HistRec) (r : HistRec) (hr : r ∈ h) :
    r.selection_round ≤ maxRound h := by
  cases h with
  | nil => cases hr
  | cons a as =>
    rcases List.mem_cons.1 hr with rfl | hmem
    · exact foldl_max_le_self as r.selection_round
    · exact foldl_max_le_of_mem as a.selection_round r hmem



theorem maxRound_attained (a : HistRec) (as : List HistRec) :
    ∃ r ∈ a :: as, maxRound (a :: as) = r.selection_round := by
  rcases foldl_max_mem as a.selection_round with h | ⟨x, hx, h⟩
  · exact ⟨a, List.mem_cons_self a as, h⟩
  · exact ⟨x, List.mem_cons_of_mem a hx, h⟩

theorem maxRound_eq_of_mem_of_ub (a : HistRec) (as : List HistRec) (m : Int)
    (hmem : ∃ r ∈ a :: as, r.selection_round = m)
    (hub : ∀ r ∈ a :: as, r.selection_round ≤ m) :
    maxRound (a :: as) = m := by
  obtain ⟨r, hr, hrm⟩ := hmem
  obtain ⟨x, hx, hxm⟩ := maxRound_attained a as
  exact le_antisymm (hxm ▸ hub x hx) (hrm ▸ le_maxRound _ r hr)

theorem last_selection_of_mem (r : HistRec) (rs : List HistRec) :
    last_selection_of r rs ∈ r :: rs ∧
      (last_selection_of r rs).selection_round = maxRound (r :: rs) := by
  obtain ⟨x, hx, hxm⟩ := maxRound_attained r rs
  have hxf : x ∈ (r :: rs).filter fun y =>
      y.selection_round = maxRound (r :: rs) := by
    rw [List.mem_filter]
    exact ⟨hx, by simp [hxm]⟩
  unfold last_selection_of
  cases hf : (r :: rs).filter
      (fun y => y.selection_round = maxRound (r :: rs)) with
  | nil => rw [hf] at hxf; cases hxf
  | cons z zs =>
    have hz : z ∈ (r :: rs).filter fun y =>
        y.selection_round = maxRound (r :: rs) := by
      rw [hf]; exact List.mem_cons_self z zs
    rw [List.mem_filter] at hz
    exact ⟨hz.1, by simpa using hz.2⟩

theorem last_selection_of_unique (r : HistRec) (rs : List HistRec)
    (hnd : ((r :: rs).map HistRec.selection_round).Nodup) (x : HistRec)
    (hx : x ∈ r :: rs)
    (hmax : ∀ y ∈ r :: rs, y.selection_round ≤ x.selection_round) :
    last_selection_of r rs = x := by
  obtain ⟨hmem, hround⟩ := last_selection_of_mem r rs
  have hxr : x.selection_round = maxRound (r :: rs) :=
    le_antisymm (le_maxRound _ x hx)
      (hround ▸ hmax _ hmem)
  exact List.inj_on_of_nodup_map hnd hmem hx (by rw [hround, hxr])

/-! ### Helper lemmas on the ledger mutators -/

theorem save_book_selection_fst (history : List HistRec) (book_data : Book)
    (now : String) :
    (save_book_selection history book_data now).1 =
      history ++
        [{ selection_date := now, book_id := book_data.id
           title := book_data.title, author_names := book_data.author_names
           genres := book_data.genres, release_year := book_data.release_year
           pages := book_data.pages, rating := book_data.rating
           selection_round :=
             if history = [] then 1 else maxRound history + 1 }] := rfl

theorem remove_last_selection_fst (a : HistRec) (as : List HistRec) :
    (remove_last_selection (a :: as)).1 =
      (a :: as).filter fun x => x.selection_round ≠ maxRound (a :: as) := rfl

theorem next_round_gt (history : List HistRec) (r : HistRec)
    (hr : r ∈ history) :
    r.selection_round < (if history = [] then 1 else maxRound history + 1) := by
  cases history with
  | nil => cases hr
  | cons a as =>
    rw [if_neg (List.cons_ne_nil a as)]
    exact Int.lt_add_one_iff.mpr (le_maxRound (a :: as) r hr)

theorem maxRound_append_gt (history : List HistRec) (row : HistRec)
    (hgt : ∀ r ∈ history, r.selection_round < row.selection_round) :
    maxRound (history ++ [row]) = row.selection_round := by
  cases history with
  | nil => rfl
  | cons a as =>
    rw [List.cons_append]
    apply maxRound_eq_of_mem_of_ub
    · exact ⟨row, by simp, rfl⟩
    · intro r hr
      rw [← List.cons_append] at hr
      rcases List.mem_append.1 hr with hmem | hmem
      · exact le_of_lt (hgt r hmem)
      · rw [List.mem_singleton.1 hmem]

theorem filter_ne_round_of_lt (history : List HistRec) (m : Int)
    (hlt : ∀ r ∈ history, r.selection_round < m) :
    (history.filter fun x => x.selection_round ≠ m) = history :=
  List.filter_eq_self.mpr fun a ha => by
    simpa using ne_of_lt (hlt a ha)

/-! ### Claim theorems -/

/-- C9: for every genres field value, `get_primary_genre` returns the
first comma-separated entry trimmed of surrounding whitespace, and an
empty value when the field is empty (`''`) or missing (`NaN`): it agrees
everywhere with the spec-worded extraction `primary_genre_spec`, and the
"same genre" test used by the exclusion rule is case-sensitive equality of
these strings. -/
theorem primary_genre_refines_spec :
    (∀ g : Option String, get_primary_genre g = primary_genre_spec g) ∧
    get_primary_genre none = "" ∧ get_primary_genre (some "") = "" ∧
    (∀ g₁ g₂ : Option String,
      (get_primary_genre g₁ = get_primary_genre g₂) ↔
        (primary_genre_spec g₁ = primary_genre_spec g₂)) := by
  have key : ∀ g : Option String, get_primary_genre g = primary_genre_spec g := by
    intro g
    cases g with
    | none => rfl
    | some s =>
      by_cases hs : s = ""
      · subst hs; decide
      · unfold get_primary_genre primary_genre_spec
        simp only [if_neg hs]
        cases hsp : splitComma s with
        | nil => simp only [hsp, List.map_nil, List.headD_nil]; decide
        | cons x xs => simp [hsp]
  exact ⟨key, rfl, rfl, fun g₁ g₂ => by rw [key g₁, key g₂]⟩

/-- C2: for every non-empty shortlist, the eligibility filter applied to
an empty history returns the whole shortlist in order together with the
"All N books eligible" status. -/
theorem eligible_books_empty_history (current_books : List Book)
    (hne : current_books ≠ []) :
    get_eligible_books_for_selection current_books [] =
      (current_books,
        "All " ++ toString current_books.length ++
          " books eligible (no previous selections)") := by
  unfold get_eligible_books_for_selection
  rw [if_neg hne]

/-- C1: for every shortlist and every non-empty history whose rounds are
pairwise distinct (the documented ledger invariant, which makes "the
last-round record" well defined), the eligibility filter returns exactly
the shortlist entries, in order, whose id is not among the `book_id`
values anywhere in the history, whose author string differs from the
last-round record's author string, and — when the last-round record's
primary genre is non-empty — whose primary genre differs from it. -/
theorem eligible_books_filter_spec (current_books : List Book)
    (history : List HistRec) (last : HistRec) (hmem : last ∈ history)
    (hmax : ∀ r ∈ history, r.selection_round ≤ last.selection_round)
    (hnd : (history.map HistRec.selection_round).Nodup) :
    (get_eligible_books_for_selection current_books history).1 =
      current_books.filter fun b =>
        ¬ (history.map HistRec.book_id).contains b.id ∧
          b.author_names ≠ last.author_names ∧
          (get_primary_genre last.genres ≠ "" →
            get_primary_genre b.genres ≠ get_primary_genre last.genres) := by
  cases history with
  | nil => cases hmem
  | cons r rs =>
    have hlast : last_selection_of r rs = last :=
      last_selection_of_unique r rs hnd last hmem hmax
    by_cases hb : current_books = []
    · subst hb; simp [get_eligible_books_for_selection]
    · unfold get_eligible_books_for_selection
      rw [if_neg hb]
      simp only [hlast, List.filter_filter]
      by_cases hg : get_primary_genre last.genres = ""
      · rw [if_neg (by simpa using hg)]
        refine List.filter_congr ?_
        intro b _
        simp [hg, Bool.and_comm, Bool.and_left_comm, Bool.and_assoc]
      · rw [if_pos hg]
        refine List.filter_congr ?_
        intro b _
        simp [hg, Bool.and_comm, Bool.and_left_comm, Bool.and_assoc]

/-- Witness for C1: shortlist `[A, B, C]`, history `[round-1 pick of A]`;
`A` is excluded as previously picked, `C` shares author `X` with the last
pick, and only `B` survives. -/
theorem eligible_books_filter_spec_witness :
    (get_eligible_books_for_selection [bookA, bookB, bookC] [histA]).1 =
      [bookB] := by
  have h := eligible_books_filter_spec [bookA, bookB, bookC] [histA] histA
    (List.mem_cons_self _ _) (by decide) (by decide)
  rw [h]; decide

/-- Witness for C2 at the three-book demo shortlist. -/
theorem eligible_books_empty_history_witness :
    get_eligible_books_for_selection [bookA, bookB, bookC] [] =
      ([bookA, bookB, bookC],
        "All " ++ toString (3 : Nat) ++
          " books eligible (no previous selections)") :=
  eligible_books_empty_history [bookA, bookB, bookC] (by decide)

/-- C3: confirming a selection appends exactly one new record whose round
is the maximum existing round plus one (`1` on an empty history — in
particular immediately after clear-all), copying the proposed book's
display fields plus the fresh timestamp, and leaves every previously
existing record unchanged. -/
theorem save_selection_appends_next_round (history : List HistRec)
    (book_data : Book) (now : String) :
    ∃ row : HistRec,
      (save_book_selection history book_data now).1 = history ++ [row] ∧
      row.selection_date = now ∧
      row.book_id = book_data.id ∧ row.title = book_data.title ∧
      row.author_names = book_data.author_names ∧
      row.genres = book_data.genres ∧
      row.release_year = book_data.release_year ∧
      row.pages = book_data.pages ∧ row.rating = book_data.rating ∧
      (history = [] → row.selection_round = 1) ∧
      (history ≠ [] →
        row.selection_round = maxRound history + 1 ∧
        ∀ r ∈ history, r.selection_round < row.selection_round) ∧
      (save_book_selection (clear_all_selections history).1 book_data
          now).1.map HistRec.selection_round = [1] := by
  refine ⟨_, save_book_selection_fst history book_data now,
    rfl, rfl, rfl, rfl, rfl, rfl, rfl, rfl, ?_, ?_, ?_⟩
  · intro h; rw [if_pos h]
  · intro h
    refine ⟨by rw [if_neg h], ?_⟩
    intro r hr
    exact next_round_gt history r hr
  · rfl

/-- Witness for C3: confirming `bookB` on the one-round demo history
yields round `2` appended after round `1`. -/
theorem save_selection_appends_next_round_witness :
    (save_book_selection [histA] bookB "2024-04-01 00:00:00").1.map
      HistRec.selection_round = [1, 2] := by
  obtain ⟨row, h1, -, -, -, -, -, -, -, -, -, h2, -⟩ :=
    save_selection_appends_next_round [histA] bookB "2024-04-01 00:00:00"
  have hr : row.selection_round = 2 := by
    have h3 := (h2 (by decide)).1
    rw [h3]; decide
  rw [h1, List.map_append]
  simp only [List.map_cons, List.map_nil, hr]
  decide

/-- C5: for every ledger state, a confirm followed by remove-last
restores the ledger to its exact pre-confirm record sequence. -/
theorem remove_last_undoes_save (history : List HistRec) (book_data : Book)
    (now : String) :
    (remove_last_selection
      (save_book_selection history book_data now).1).1 = history := by
  rw [save_book_selection_fst]
  set row : HistRec :=
    { selection_date := now, book_id := book_data.id
      title := book_data.title, author_names := book_data.author_names
      genres := book_data.genres, release_year := book_data.release_year
      pages := book_data.pages, rating := book_data.rating
      selection_round :=
        if history = [] then 1 else maxRound history + 1 } with hrow
  have hgt : ∀ r ∈ history, r.selection_round < row.selection_round :=
    fun r hr => next_round_gt history r hr
  have hmax : maxRound (history ++ [row]) = row.selection_round :=
    maxRound_append_gt history row hgt
  cases history with
  | nil =>
    rw [List.nil_append, remove_last_selection_fst]
    simp [maxRound, hrow]
  | cons a as =>
    rw [List.cons_append, remove_last_selection_fst, ← List.cons_append, hmax,
      List.filter_append, filter_ne_round_of_lt (a :: as) _ hgt]
    simp

/-- C6: remove-last on an empty history fails with "nothing to remove"
and leaves the (empty) ledger unchanged; on a non-empty history with the
pairwise-distinct-rounds ledger invariant it deletes exactly the single
maximum-round record, keeping every other record in order, and reports
that record's title and round. -/
theorem remove_last_spec (history : List HistRec)
    (hnd : (history.map HistRec.selection_round).Nodup) :
    remove_last_selection [] = ([], false, "No selections to remove") ∧
    (history ≠ [] →
      ∃ last l1 l2,
        history = l1 ++ last :: l2 ∧
        (∀ r ∈ history, r.selection_round ≤ last.selection_round) ∧
        (remove_last_selection history).1 = l1 ++ l2 ∧
        (remove_last_selection history).2 =
          (true, "Removed '" ++ last.title ++ "' from Round " ++
            toString last.selection_round)) := by
  refine ⟨rfl, ?_⟩
  intro hne
  cases history with
  | nil => exact absurd rfl hne
  | cons r rs =>
    obtain ⟨hmem, hround⟩ := last_selection_of_mem r rs
    obtain ⟨l1, l2, hsplit⟩ := List.append_of_mem hmem
    have hub : ∀ x ∈ r :: rs,
        x.selection_round ≤ (last_selection_of r rs).selection_round := by
      intro x hx; rw [hround]; exact le_maxRound (r :: rs) x hx
    have hnd' : ((l1 ++ last_selection_of r rs :: l2).map
        HistRec.selection_round).Nodup := hsplit ▸ hnd
    rw [List.map_append, List.map_cons] at hnd'
    have hl2 : (last_selection_of r rs).selection_round ∉
        l2.map HistRec.selection_round :=
      (List.nodup_cons.1 hnd'.of_append_right).1
    have hl1 : (last_selection_of r rs).selection_round ∉
        l1.map HistRec.selection_round := by
      intro hmem1
      exact (List.nodup_append.1 hnd').2.2 hmem1 (List.mem_cons_self _ _)
    refine ⟨last_selection_of r rs, l1, l2, hsplit, hub, ?_, rfl⟩
    rw [remove_last_selection_fst, ← hround, hsplit, List.filter_append,
      List.filter_cons]
    have hx1 : (l1.filter fun x =>
        x.selection_round ≠ (last_selection_of r rs).selection_round) = l1 :=
      List.filter_eq_self.mpr fun a ha => by
        simp only [ne_eq, decide_eq_true_eq]
        exact fun heq => hl1 (heq ▸ List.mem_map_of_mem HistRec.selection_round ha)
    have hx2 : (l2.filter fun x =>
        x.selection_round ≠ (last_selection_of r rs).selection_round) = l2 :=
      List.filter_eq_self.mpr fun a ha => by
        simp only [ne_eq, decide_eq_true_eq]
        exact fun heq => hl2 (heq ▸ List.mem_map_of_mem HistRec.selection_round ha)
    rw [hx1, hx2]
    simp

/-- Witness for C6 at the two-round demo history: the round-2 record is
deleted and reported. -/
theorem remove_last_spec_witness :
    remove_last_selection [] = ([], false, "No selections to remove") ∧
    ([histA, histB] ≠ ([] : List HistRec) →
      ∃ last l1 l2,
        [histA, histB] = l1 ++ last :: l2 ∧
        (∀ r ∈ [histA, histB],
          r.selection_round ≤ last.selection_round) ∧
        (remove_last_selection [histA, histB]).1 = l1 ++ l2 ∧
        (remove_last_selection [histA, histB]).2 =
          (true, "Removed '" ++ last.title ++ "' from Round " ++
            toString last.selection_round)) :=
  remove_last_spec [histA, histB] (by decide)

/-! ### Helper lemmas on `roundSeq` -/

theorem roundSeq_succ (n : Nat) :
    roundSeq (n + 1) = roundSeq n ++ [(n : Int) + 1] := rfl

theorem roundSeq_length (n : Nat) : (roundSeq n).length = n := by
  induction n with
  | zero => rfl
  | succ m ih => simp [roundSeq, ih]

theorem mem_roundSeq_le (n : Nat) (x : Int) (hx : x ∈ roundSeq n) :
    1 ≤ x ∧ x ≤ (n : Int) := by
  induction n with
  | zero => cases hx
  | succ m ih =>
    rw [roundSeq_succ] at hx
    rcases List.mem_append.1 hx with hmem | hmem
    · have := ih hmem
      constructor <;> omega
    · rw [List.mem_singleton.1 hmem]
      constructor <;> omega

theorem roundSeq_nodup (n : Nat) : (roundSeq n).Nodup := by
  induction n with
  | zero => exact List.nodup_nil
  | succ m ih =>
    rw [roundSeq_succ]
    refine List.nodup_append.mpr ⟨ih, List.nodup_singleton _, ?_⟩
    intro a ha hb
    rw [List.mem_singleton.1 hb] at ha
    have := mem_roundSeq_le m _ ha
    omega

theorem maxRound_of_roundSeq (a : HistRec) (as : List HistRec)
    (hinv : (a :: as).map HistRec.selection_round =
      roundSeq (a :: as).length) :
    maxRound (a :: as) = ((a :: as).length : Int) := by
  apply maxRound_eq_of_mem_of_ub
  · have hmem : (((a :: as).length : Int)) ∈
        (a :: as).map HistRec.selection_round := by
      rw [hinv]
      show _ ∈ roundSeq (as.length + 1)
      rw [roundSeq_succ]
      refine List.mem_append_right _ ?_
      simp only [List.mem_singleton, List.length_cons]
      push_cast
      ring
    obtain ⟨r, hr, hrr⟩ := List.mem_map.1 hmem
    exact ⟨r, hr, hrr⟩
  · intro r hr
    have hmem : r.selection_round ∈ (a :: as).map HistRec.selection_round :=
      List.mem_map_of_mem HistRec.selection_round hr
    rw [hinv] at hmem
    exact (mem_roundSeq_le _ _ hmem).2

theorem map_round_filter_ne (h : List HistRec) (m : Int) :
    (h.filter fun x => x.selection_round ≠ m).map HistRec.selection_round =
      (h.map HistRec.selection_round).filter fun y => y ≠ m := by
  induction h with
  | nil => rfl
  | cons a as ih =>
    simp only [ne_eq, decide_not] at ih ⊢
    rw [List.filter_cons, List.map_cons, List.filter_cons]
    by_cases ha : a.selection_round = m
    · simp [ha, ih]
    · simp [ha, ih]

theorem roundSeq_filter_top (n : Nat) :
    ((roundSeq (n + 1)).filter fun x => x ≠ ((n : Int) + 1)) = roundSeq n := by
  rw [roundSeq_succ, List.filter_append]
  have h1 : ((roundSeq n).filter fun x => x ≠ ((n : Int) + 1)) = roundSeq n :=
    List.filter_eq_self.mpr fun a ha => by
      have := mem_roundSeq_le n a ha
      simp only [ne_eq, decide_eq_true_eq]
      omega
  have h2 : ([((n : Int) + 1)].filter fun x => x ≠ ((n : Int) + 1)) = [] := by
    simp
  rw [h1, h2, List.append_nil]

theorem inv_append_row (h : List HistRec) (row : HistRec)
    (hinv : h.map HistRec.selection_round = roundSeq h.length)
    (hround : row.selection_round = (h.length : Int) + 1) :
    (h ++ [row]).map HistRec.selection_round =
      roundSeq (h ++ [row]).length := by
  rw [List.map_append, hinv, List.map_cons, List.map_nil, hround]
  have hlen : (h ++ [row]).length = h.length + 1 := by simp
  rw [hlen, roundSeq_succ]

theorem apply_ledger_op_preserves (h : List HistRec) (op : LedgerOp)
    (hinv : h.map HistRec.selection_round = roundSeq h.length) :
    (apply_ledger_op h op).map HistRec.selection_round =
      roundSeq (apply_ledger_op h op).length := by
  cases op with
  | confirm book_data now =>
    show ((save_book_selection h book_data now).1.map HistRec.selection_round)
      = roundSeq (save_book_selection h book_data now).1.length
    rw [save_book_selection_fst]
    apply inv_append_row h _ hinv
    show (if h = [] then (1 : Int) else maxRound h + 1) = (h.length : Int) + 1
    cases h with
    | nil => rfl
    | cons a as =>
      rw [if_neg (List.cons_ne_nil a as), maxRound_of_roundSeq a as hinv]
  | removeLast =>
    cases h with
    | nil => rfl
    | cons a as =>
      have hmax := maxRound_of_roundSeq a as hinv
      show ((remove_last_selection (a :: as)).1.map HistRec.selection_round)
        = roundSeq (remove_last_selection (a :: as)).1.length
      rw [remove_last_selection_fst]
      have hmr : (((a :: as).filter fun x =>
          x.selection_round ≠ maxRound (a :: as)).map
            HistRec.selection_round) = roundSeq as.length := by
        rw [map_round_filter_ne, hinv, hmax]
        have h1 : (a :: as).length = as.length + 1 := rfl
        rw [h1]
        rw [show ((as.length + 1 : Nat) : Int) = (as.length : Int) + 1 by
          push_cast; ring]
        exact roundSeq_filter_top as.length
      have hlen : ((a :: as).filter fun x =>
          x.selection_round ≠ maxRound (a :: as)).length = as.length := by
        have h2 := congrArg List.length hmr
        rwa [List.length_map, roundSeq_length] at h2
      rw [hmr, hlen]
  | clearAll => rfl

theorem run_ledger_inv (ops : List LedgerOp) :
    ∀ h : List HistRec,
      h.map HistRec.selection_round = roundSeq h.length →
      (ops.foldl apply_ledger_op h).map HistRec.selection_round =
        roundSeq (ops.foldl apply_ledger_op h).length := by
  induction ops with
  | nil => intro h hinv; exact hinv
  | cons op rest ih =>
    intro h hinv
    exact ih (apply_ledger_op h op) (apply_ledger_op_preserves h op hinv)

/-- C4: starting from an empty ledger, after any sequence of confirm,
remove-last and clear-all operations the `selection_round` column is
exactly the contiguous sequence `1..N` (`N` the number of records): no
gaps, no repeats, at most one record per round. -/
theorem ledger_rounds_contiguous (ops : List LedgerOp) :
    (run_ledger_ops ops).map HistRec.selection_round =
      roundSeq (run_ledger_ops ops).length ∧
    ((run_ledger_ops ops).map HistRec.selection_round).Nodup := by
  have h := run_ledger_inv ops [] rfl
  exact ⟨h, h ▸ roundSeq_nodup _⟩

/-! ### Helper lemmas on the selector -/

theorem select_random_book_of_nil (s : Stores) (k : Nat)
    (h : (get_eligible_books_for_selection s.shortlist s.ledger).1 = []) :
    select_random_book s k =
      (s, none, (get_eligible_books_for_selection s.shortlist s.ledger).2) := by
  simp only [select_random_book, h]

theorem select_random_book_of_cons (s : Stores) (k : Nat) (b0 : Book)
    (bs : List Book)
    (h : (get_eligible_books_for_selection s.shortlist s.ledger).1 = b0 :: bs) :
    select_random_book s k =
      (s, some ((b0 :: bs).get
          ⟨k % (bs.length + 1), Nat.mod_lt k (Nat.succ_pos bs.length)⟩),
        (get_eligible_books_for_selection s.shortlist s.ledger).2) := by
  simp only [select_random_book, h]

/-- C7: the selector leaves both stores untouched; on an empty eligible
set it fails by returning no book; on a non-empty eligible set it returns
a member of that set, and over a seed drawn uniformly from `0..n-1` the
outcomes enumerate the eligible rows exactly once each (probability
`1/n` per row); with exactly one eligible book it deterministically
returns that book. -/
theorem select_random_spec (s : Stores) (k : Nat) :
    (select_random_book s k).1 = s ∧
    ((get_eligible_books_for_selection s.shortlist s.ledger).1 = [] →
      (select_random_book s k).2.1 = none) ∧
    (∀ b : Book, (select_random_book s k).2.1 = some b →
      b ∈ (get_eligible_books_for_selection s.shortlist s.ledger).1) ∧
    ((get_eligible_books_for_selection s.shortlist s.ledger).1 ≠ [] →
      ∃ b : Book, (select_random_book s k).2.1 = some b) ∧
    ((List.range (get_eligible_books_for_selection s.shortlist
        s.ledger).1.length).map (fun j => (select_random_book s j).2.1) =
      (get_eligible_books_for_selection s.shortlist s.ledger).1.map some) ∧
    (∀ b : Book,
      (get_eligible_books_for_selection s.shortlist s.ledger).1 = [b] →
      (select_random_book s k).2.1 = some b) := by
  rcases helig : (get_eligible_books_for_selection s.shortlist s.ledger).1
    with _ | ⟨b0, bs⟩
  · refine ⟨?_, ?_, ?_, ?_, ?_, ?_⟩
    · rw [select_random_book_of_nil s k helig]
    · intro _; rw [select_random_book_of_nil s k helig]
    · intro b hb
      rw [select_random_book_of_nil s k helig] at hb
      cases hb
    · intro hne; exact absurd rfl hne
    · rfl
    · intro b hb; cases hb
  · have hsel := select_random_book_of_cons s k b0 bs helig
    refine ⟨?_, ?_, ?_, ?_, ?_, ?_⟩
    · rw [hsel]
    · intro h; cases h
    · intro b hb
      rw [hsel] at hb
      rw [← Option.some.inj hb]
      exact List.get_mem _ _ _
    · exact fun _ => ⟨_, by rw [hsel]⟩
    · refine List.ext_get (by simp) ?_
      intro i h1 h2
      have hlen : (List.range (b0 :: bs).length).length = (b0 :: bs).length :=
        List.length_range _
      have hi : i < (b0 :: bs).length := by
        rw [List.length_map] at h1
        rw [hlen] at h1
        exact h1
      rw [List.get_map, List.get_map, List.get_range]
      rw [select_random_book_of_cons s _ b0 bs helig]
      have hmod : i % (bs.length + 1) = i := Nat.mod_eq_of_lt hi
      simp only [hmod]
    · intro b hb
      injection hb with h1 h2
      subst h1
      subst h2
      rw [hsel]
      simp [Nat.mod_one]

/-- Witness for C7: with shortlist `[A, B, C]` and history `[round-1 pick
of A]` exactly one book (`B`) is eligible, and the selector leaves the
stores untouched and deterministically returns `B` (here at seed 5). -/
theorem select_random_spec_witness :
    (select_random_book ⟨[bookA, bookB, bookC], [histA]⟩ 5).1 =
      ({ shortlist := [bookA, bookB, bookC], ledger := [histA] } : Stores) ∧
    (select_random_book ⟨[bookA, bookB, bookC], [histA]⟩ 5).2.1 =
      some bookB := by
  have h := select_random_spec ⟨[bookA, bookB, bookC], [histA]⟩ 5
  exact ⟨h.1, h.2.2.2.2.2 bookB (by decide)⟩

/-- C8: inserting a book whose id already occurs in the shortlist is
rejected with a failure message and the shortlist unchanged; otherwise
the book is appended with that id, and id-uniqueness of the shortlist is
preserved. -/
theorem save_book_to_list_spec (books : List Book) (book_data : BookInput)
    (now : String) :
    ((books.map Book.id).contains book_data.id = true →
      save_book_to_list books book_data now =
        (books, false, "Book is already in your list!")) ∧
    ((books.map Book.id).contains book_data.id = false →
      ∃ row : Book,
        save_book_to_list books book_data now =
          (books ++ [row], true, "Book added to your list!") ∧
        row.id = book_data.id ∧ row.added_date = now ∧
        ((books.map Book.id).Nodup → ((books ++ [row]).map Book.id).Nodup)) := by
  constructor
  · intro h
    unfold save_book_to_list
    rw [if_pos h]
  · intro h
    unfold save_book_to_list
    rw [if_neg (by rw [h]; simp)]
    refine ⟨_, rfl, rfl, rfl, ?_⟩
    intro hnd
    rw [List.map_append, List.map_cons, List.map_nil]
    refine List.nodup_append.mpr ⟨hnd, List.nodup_singleton _, ?_⟩
    intro a ha hb
    rw [List.mem_singleton] at hb
    subst hb
    have hmem : book_data.id ∈ books.map Book.id := ha
    rw [← List.elem_iff] at hmem
    rw [show (books.map Book.id).elem book_data.id =
      (books.map Book.id).contains book_data.id from rfl, h] at hmem
    cases hmem

/-- Witness for C8: inserting id `"D"` into `[A, B, C]` succeeds and
preserves id-uniqueness; the id-occupied branch is exercised by the
hypothesis check on the contains test. -/
theorem save_book_to_list_spec_witness :
    ∃ row : Book,
      save_book_to_list [bookA, bookB, bookC] inputD "2024-05-01 00:00:00" =
        ([bookA, bookB, bookC] ++ [row], true, "Book added to your list!") ∧
      row.id = inputD.id ∧ row.added_date = "2024-05-01 00:00:00" ∧
      (([bookA, bookB, bookC].map Book.id).Nodup →
        (([bookA, bookB, bookC] ++ [row]).map Book.id).Nodup) :=
  (save_book_to_list_spec [bookA, bookB, bookC] inputD
    "2024-05-01 00:00:00").2 (by decide)

/-! ### Helper lemmas on shortlist deduplication -/

theorem dedupByIdAux_sublist (l : List Book) :
    ∀ seen : List String, (dedupByIdAux seen l).Sublist l := by
  induction l with
  | nil => intro seen; exact List.Sublist.refl []
  | cons b bs ih =>
    intro seen
    rw [dedupByIdAux]
    by_cases hc : seen.contains b.id = true
    · rw [if_pos hc]
      exact (ih seen).cons b
    · rw [if_neg hc]
      exact (ih (b.id :: seen)).cons₂ b

theorem dedupByIdAux_nodup (l : List Book) :
    ∀ seen : List String,
      ((dedupByIdAux seen l).map Book.id).Nodup ∧
      ∀ s ∈ (dedupByIdAux seen l).map Book.id, s ∉ seen := by
  induction l with
  | nil =>
    intro seen
    exact ⟨List.nodup_nil, fun s hs => absurd hs (List.not_mem_nil s)⟩
  | cons b bs ih =>
    intro seen
    rw [dedupByIdAux]
    by_cases hc : seen.contains b.id = true
    · rw [if_pos hc]
      exact ih seen
    · rw [if_neg hc]
      obtain ⟨ihn, ihs⟩ := ih (b.id :: seen)
      rw [List.map_cons]
      constructor
      · refine List.nodup_cons.mpr ⟨?_, ihn⟩
        intro hmem
        exact ihs b.id hmem (List.mem_cons_self b.id seen)
      · intro s hs
        rcases List.mem_cons.1 hs with rfl | hmem
        · intro habs
          exact hc (List.elem_iff.mpr habs)
        · intro habs
          exact ihs s hmem (List.mem_cons_of_mem b.id habs)

theorem dedupByIdAux_find? (l : List Book) :
    ∀ (seen : List String) (key : String), key ∉ seen →
      (dedupByIdAux seen l).find? (fun b => b.id == key) =
        l.find? (fun b => b.id == key) := by
  induction l with
  | nil => intro seen key _; rfl
  | cons b bs ih =>
    intro seen key hkey
    rw [dedupByIdAux]
    by_cases hc : seen.contains b.id = true
    · rw [if_pos hc]
      have hbk : ¬ (b.id == key) = true := by
        intro hbeq
        exact hkey (beq_iff_eq.1 hbeq ▸ List.elem_iff.1 hc)
      rw [@List.find?_cons_of_neg _ (fun x => x.id == key) b bs hbk]
      exact ih seen key hkey
    · rw [if_neg hc]
      by_cases hbk : (b.id == key) = true
      · rw [@List.find?_cons_of_pos _ (fun x => x.id == key) b
          (dedupByIdAux (b.id :: seen) bs) hbk,
          @List.find?_cons_of_pos _ (fun x => x.id == key) b bs hbk]
      · rw [@List.find?_cons_of_neg _ (fun x => x.id == key) b
          (dedupByIdAux (b.id :: seen) bs) hbk,
          @List.find?_cons_of_neg _ (fun x => x.id == key) b bs hbk]
        refine ih (b.id :: seen) key ?_
        intro hmem
        rcases List.mem_cons.1 hmem with heq | hmem'
        · exact hbk (beq_iff_eq.2 heq.symm)
        · exact hkey hmem'

theorem dedupByIdAux_of_nodup (l : List Book) :
    ∀ seen : List String, ((l.map Book.id).Nodup) →
      (∀ s ∈ l.map Book.id, s ∉ seen) →
      dedupByIdAux seen l = l := by
  induction l with
  | nil => intro seen _ _; rfl
  | cons b bs ih =>
    intro seen hnd hout
    rw [dedupByIdAux]
    have hbid : b.id ∉ seen :=
      hout b.id (List.mem_cons_self b.id (bs.map Book.id))
    rw [if_neg (fun hc => hbid (List.elem_iff.1 hc))]
    rw [List.map_cons] at hnd hout
    congr 1
    refine ih (b.id :: seen) (List.nodup_cons.1 hnd).2 ?_
    intro s hs
    intro habs
    rcases List.mem_cons.1 habs with rfl | hmem
    · exact (List.nodup_cons.1 hnd).1 hs
    · exact hout s (List.mem_cons_of_mem b.id hs) hmem

theorem dedupById_sublist (l : List Book) : (dedupById l).Sublist l :=
  dedupByIdAux_sublist l []

theorem dedupById_id_nodup (l : List Book) :
    ((dedupById l).map Book.id).Nodup :=
  (dedupByIdAux_nodup l []).1

theorem dedupById_find? (l : List Book) (key : String) :
    (dedupById l).find? (fun b => b.id == key) =
      l.find? (fun b => b.id == key) :=
  dedupByIdAux_find? l [] key (List.not_mem_nil key)

theorem dedupById_idem (l : List Book) :
    dedupById (dedupById l) = dedupById l :=
  dedupByIdAux_of_nodup (dedupById l) [] (dedupById_id_nodup l)
    (fun s _ => List.not_mem_nil s)

theorem clean_duplicate_books_fst (books : List Book) :
    (clean_duplicate_books books).1 = dedupById books := by
  unfold clean_duplicate_books
  by_cases hb : books = []
  · rw [if_pos hb]
    subst hb
    rfl
  · rw [if_neg hb]
    dsimp only
    by_cases hr : books.length - (dedupById books).length > 0
    · rw [if_pos hr]
    · rw [if_neg hr]
      have hsub := dedupById_sublist books
      have hle := hsub.length_le
      have hlen : (dedupById books).length = books.length := by omega
      exact (hsub.eq_of_length hlen).symm

theorem clean_duplicate_books_snd_of_ne (books : List Book)
    (hne : books ≠ []) :
    (clean_duplicate_books books).2 =
      some (books.length - (dedupById books).length) := by
  unfold clean_duplicate_books
  rw [if_neg hne]

/-- C10: shortlist deduplication keeps the first occurrence per id (the
cleaned list is an order-preserving sublist with pairwise-distinct ids in
which the record found first for any present id is unchanged), reports
the number of records removed, and is idempotent: running it again
changes nothing and removes `0` records. -/
theorem clean_duplicates_spec (books : List Book) :
    (clean_duplicate_books books).1.Sublist books ∧
    ((clean_duplicate_books books).1.map Book.id).Nodup ∧
    (∀ x ∈ books,
      (clean_duplicate_books books).1.find? (fun b => b.id == x.id) =
        books.find? (fun b => b.id == x.id)) ∧
    (books ≠ [] →
      (clean_duplicate_books books).2 =
        some (books.length - (clean_duplicate_books books).1.length)) ∧
    (clean_duplicate_books (clean_duplicate_books books).1).1 =
      (clean_duplicate_books books).1 ∧
    ((clean_duplicate_books books).1 ≠ [] →
      (clean_duplicate_books (clean_duplicate_books books).1).2 = some 0) := by
  refine ⟨?_, ?_, ?_, ?_, ?_, ?_⟩
  · rw [clean_duplicate_books_fst]
    exact dedupById_sublist books
  · rw [clean_duplicate_books_fst]
    exact dedupById_id_nodup books
  · intro x _
    rw [clean_duplicate_books_fst]
    exact dedupById_find? books x.id
  · intro hne
    rw [clean_duplicate_books_snd_of_ne books hne, clean_duplicate_books_fst]
  · rw [clean_duplicate_books_fst, clean_duplicate_books_fst, dedupById_idem]
  · intro hne
    rw [clean_duplicate_books_snd_of_ne _ hne, clean_duplicate_books_fst,
      dedupById_idem, Nat.sub_self]

/-- Witness for C10: on `[A, A, B]` the first `A` is kept, one record is
removed, and a second run removes `0`. -/
theorem clean_duplicates_spec_witness :
    (clean_duplicate_books [bookA, bookA, bookB]).2 = some 1 ∧
    (clean_duplicate_books
      (clean_duplicate_books [bookA, bookA, bookB]).1).2 = some 0 ∧
    (clean_duplicate_books [bookA, bookA, bookB]).1.find?
        (fun b => b.id == bookA.id) =
      [bookA, bookA, bookB].find? (fun b => b.id == bookA.id) := by
  have h := clean_duplicates_spec [bookA, bookA, bookB]
  refine ⟨?_, ?_, ?_⟩
  · rw [h.2.2.2.1 (by decide)]
    rw [show (clean_duplicate_books [bookA, bookA, bookB]).1 =
      dedupById [bookA, bookA, bookB] from clean_duplicate_books_fst _]
    decide
  · refine h.2.2.2.2.2 ?_
    rw [show (clean_duplicate_books [bookA, bookA, bookB]).1 =
      dedupById [bookA, bookA, bookB] from clean_duplicate_books_fst _]
    decide
  · exact h.2.2.1 bookA (by decide)
